import Mathlib

/-
Verification development for the relic build generator core
(src/src/nightreign_relic_build_generator/build_finder.py, with the data
model from src/src/nightreign_relic_build_generator/nightreign.py).

Shallow embedding conventions:
* Python `int` becomes `Int` (scores, thresholds, heap capacity); levels and
  list indices become `Nat`.
* Python `set` becomes `Finset` (insert / erase model `add` / `remove`; all
  `remove` call sites in the source only ever remove a present element, so
  the total `erase` is faithful there).
* Python `dict.get` on the score table becomes a function
  `String → Option Int`; the table is taken as the already-constructed
  lowercase mapping (the json5 loading in `BuildFinder.__post_init__` is
  I/O outside the claims).
* Fallible code (`IndexError` from reading `_heap[0]` of an empty heap)
  returns `Option`, `none` marking the raised exception.
* The standard-library `heapq` calls (`heappush`, `heapreplace`) are
  modelled by their documented min-heap contract with a representation
  that keeps the entry list sorted by ascending score: `heappush` is a
  stable sorted insert and `heapreplace` pops the head (a minimum) and
  inserts the new entry.  Only the identity of the evicted entry among
  equal-score minima depends on this representation choice; concrete
  inputs used below avoid such ties.
* The `IncrementalScorer._change_log` list is kept most-recent-first, so
  Python's `append` / `pop()` become `::` / head matching.
* `tqdm` progress reporting is purely observational and is omitted.
-/

namespace NR

/-- Model of `Color` from nightreign.py: four colors, their deep variants, unknown. -/
inductive Color where
  | blue | green | red | yellow
  | deepBlue | deepGreen | deepRed | deepYellow
  | unknown
deriving DecidableEq, Repr

/-- Value of `str(color)` — the `StrEnum` value string of nightreign.py's `Color`. -/
def Color.str : Color → String
  | .blue => "Blue"
  | .green => "Green"
  | .red => "Red"
  | .yellow => "Yellow"
  | .deepBlue => "DeepBlue"
  | .deepGreen => "DeepGreen"
  | .deepRed => "DeepRed"
  | .deepYellow => "DeepYellow"
  | .unknown => "UNKNOWN"

/-- Predicate `Color.is_deep` from nightreign.py. -/
def Color.is_deep : Color → Bool
  | .deepBlue | .deepGreen | .deepRed | .deepYellow => true
  | _ => false

/-- Modelled from the spec: the `Effect` value type of §3 (name, numeric
level, stacking flag, optional exclusivity tag).  build_finder.py consumes
this shape (`effect.stackable`, `effect.exclusive`); the nightreign.py
present under src/ still carries the older `is_starting_imbue` /
`is_starting_skill` booleans that §9 reframes as the `exclusive` tag, so
the `exclusive`-tagged variant is missing from src/ and is taken from the
spec's words.  `none` models a falsy (absent) tag. -/
structure Effect where
  name : String
  level : Nat
  stackable : Bool
  exclusive : Option String
deriving DecidableEq, Repr

/-- Property `Effect.qualified_name` from nightreign.py: `f"{self.name} +{self.level}"`. -/
def Effect.qualified_name (e : Effect) : String :=
  e.name ++ " +" ++ toString e.level

/-- Modelled from the spec: the `Relic` value type of §3 restricted to the
fields the search consumes — its category (`color`) and the ordered effect
list `effects_and_curses` that build_finder.py iterates (display-only
fields such as `name` and `size` are not used by any claim). -/
structure Relic where
  color : Color
  effects_and_curses : List Effect
deriving DecidableEq, Repr

/-- The score table: lowercase effect name (possibly `"name +N"`) to score,
queried only through `.get`. -/
def ScoreTable := String → Option Int

/-- Python `str.lower()` for the ASCII names the program uses, written as
a structural map over the character list (the library `String.toLower`
is definitionally opaque). -/
def lowerStr (s : String) : String := ⟨s.data.map Char.toLower⟩

/-- Record `ScoredEffects` from build_finder.py. -/
structure ScoredEffects where
  active_effects : List Effect
  score : Int
deriving DecidableEq, Repr

/-- The fold state of `get_scored_effects`: `score`, `seen`, `active`,
`seen_exclusive` in source order. -/
structure GseState where
  score : Int
  seen : Finset (String × Nat)
  active : List Effect
  seen_exclusive : Finset String
deriving DecidableEq

/-- One loop iteration of `get_scored_effects` (build_finder.py lines
84-109): the stackability test, the `seen.add` that precedes the
exclusivity test, the exclusivity test, the `seen_exclusive.add`, and the
three-stage table lookup (qualified name, `"name +*"`, bare name times
`level + 1`). -/
def gseStep (score_table : ScoreTable) (st : GseState) (effect : Effect) :
    GseState :=
  let seen_key := (effect.name, effect.level)
  if effect.stackable ∨ seen_key ∉ st.seen then
    let st := { st with seen := insert seen_key st.seen }
    if effect.exclusive = none ∨
        (∀ t, effect.exclusive = some t → t ∉ st.seen_exclusive) then
      let st :=
        match effect.exclusive with
        | some t => { st with seen_exclusive := insert t st.seen_exclusive }
        | none => st
      let effect_score :=
        match score_table (lowerStr effect.qualified_name) with
        | some v => v
        | none =>
          match score_table (lowerStr effect.name ++ " +*") with
          | some v => v
          | none =>
            (match score_table (lowerStr effect.name) with
             | some v => v
             | none => 0) * ((effect.level : Int) + 1)
      { st with active := st.active ++ [effect],
                score := st.score + effect_score }
    else st
  else st

/-- Function `get_scored_effects` from build_finder.py. -/
def get_scored_effects (effects : List Effect) (score_table : ScoreTable) :
    ScoredEffects :=
  let st := effects.foldl (gseStep score_table) ⟨0, ∅, [], ∅⟩
  ⟨st.active, st.score⟩

/-- Record `Build` from build_finder.py (a `ScoredEffects` plus vessel name and
the ordered relic-index-or-empty assignment). -/
structure Build where
  active_effects : List Effect
  score : Int
  vessel_name : String
  relic_indexes : List (Option Nat)
deriving DecidableEq, Repr

/-- Record `BuildHeap._Entry`: ordered by `score` only (`build` has
`compare=False`). -/
structure Entry where
  score : Int
  build : Build
deriving DecidableEq, Repr

/-- Type `BuildHeap._Signature`: `(score, frozenset(relic_indexes),
frozenset(active_effects))`. -/
def Signature := Int × Finset (Option Nat) × Finset Effect
deriving DecidableEq

/-- Method `BuildHeap._signature`. -/
def signatureOf (build : Build) : Signature :=
  (build.score, build.relic_indexes.toFinset, build.active_effects.toFinset)

/-- Record `BuildHeap` from build_finder.py; the entry list is the `heapq` array,
kept sorted by ascending score (see the header note on the heapq model). -/
structure BuildHeap where
  max_size : Int
  heap : List Entry
  signatures : Finset Signature

/-- Sorted insert implementing `heapq.heappush`'s contract: the new entry
is placed before the first strictly greater score (after any equal ones). -/
def heapInsert (e : Entry) : List Entry → List Entry
  | [] => [e]
  | x :: xs => if e.score < x.score then e :: x :: xs else x :: heapInsert e xs

/-- Method `BuildHeap.consider`.  `none` models the `IndexError` raised by reading
`self._heap[0].score` when the heap is empty (possible when
`max_size <= 0`); the `heapreplace` branch pops the head (a minimum of the
sorted list) and inserts the new entry. -/
def consider (h : BuildHeap) (build : Build) : Option BuildHeap :=
  let sig := signatureOf build
  if sig ∈ h.signatures then some h
  else
    let entry : Entry := ⟨build.score, build⟩
    if (h.heap.length : Int) < h.max_size then
      some { h with heap := heapInsert entry h.heap,
                    signatures := insert sig h.signatures }
    else
      match h.heap with
      | [] => none
      | root :: rest =>
        if build.score > root.score then
          some { h with
                 heap := heapInsert entry rest,
                 signatures :=
                   insert sig (h.signatures.erase (signatureOf root.build)) }
        else some h

/-- Stable descending insertion for `sorted(..., reverse=True)`. -/
def insertDescBy {α : Type} (key : α → Int) (x : α) : List α → List α
  | [] => [x]
  | y :: ys =>
    if key x ≥ key y then x :: y :: ys else y :: insertDescBy key x ys

/-- Stable descending sort by a key (Python `sorted(..., reverse=True)`). -/
def sortDescBy {α : Type} (key : α → Int) : List α → List α
  | [] => []
  | x :: xs => insertDescBy key x (sortDescBy key xs)

/-- Method `BuildHeap.results_desc`. -/
def results_desc (h : BuildHeap) : List Build :=
  (sortDescBy (fun e => e.score) h.heap).map (fun e => e.build)

/-- The change-log entries of the incremental scorer (`ScoreChange`,
`SeenChange`, `ExclusiveFlagChange`, `PushEffectChange`). -/
inductive Change where
  | score (value : Int)
  | seen (value : String × Nat)
  | exclusiveFlag (tag : String)
  | pushEffect (value : Effect)
deriving DecidableEq, Repr

/-- The mutable state of `IncrementalScorer` (the `score_table` is passed
to the operations instead of being stored).  `log` is the `_change_log`
kept most-recent-first. -/
structure ScorerState where
  current_score : Int
  seen_keys : Finset (String × Nat)
  exclusive_taken : Finset String
  active_effects_stack : List Effect
  log : List Change
deriving DecidableEq

/-- The fresh scorer created at the start of `top_builds`. -/
def initScorer : ScorerState := ⟨0, ∅, ∅, [], []⟩

/-- Method `IncrementalScorer._score_of`: qualified-name lookup, else bare name
times `level + 1` — with no `"name +*"` step. -/
def score_of (score_table : ScoreTable) (effect : Effect) : Int :=
  match score_table (lowerStr effect.qualified_name) with
  | some direct => direct
  | none =>
    (match score_table (lowerStr effect.name) with
     | some base => base
     | none => 0) * ((effect.level : Int) + 1)

/-- One iteration of the `push_relic` loop (build_finder.py lines 163-198):
the two blocking tests, the seen-key record, the exclusive-tag record, the
score update (logged only when nonzero, per `if s:`), and the
unconditional effect push. -/
def pushEffect (score_table : ScoreTable) (s : ScorerState)
    (effect : Effect) : ScorerState :=
  let seen_key := (effect.name, effect.level)
  if ¬effect.stackable ∧ seen_key ∈ s.seen_keys then s
  else if ∃ t, effect.exclusive = some t ∧ t ∈ s.exclusive_taken then s
  else
    let s :=
      if ¬effect.stackable then
        { s with seen_keys := insert seen_key s.seen_keys,
                 log := .seen seen_key :: s.log }
      else s
    let s :=
      match effect.exclusive with
      | some t =>
        if t ∉ s.exclusive_taken then
          { s with exclusive_taken := insert t s.exclusive_taken,
                   log := .exclusiveFlag t :: s.log }
        else s
      | none => s
    let v := score_of score_table effect
    let s :=
      if v ≠ 0 then
        { s with current_score := s.current_score + v,
                 log := .score v :: s.log }
      else s
    { s with active_effects_stack := s.active_effects_stack ++ [effect],
             log := .pushEffect effect :: s.log }

/-- Method `IncrementalScorer.push_relic` (the returned delta, ignored by every
caller, is recoverable as the difference of `current_score`). -/
def push_relic (score_table : ScoreTable) (s : ScorerState) (relic : Relic) :
    ScorerState :=
  relic.effects_and_curses.foldl (pushEffect score_table) s

/-- Sequential `push_relic` calls. -/
def pushRelics (score_table : ScoreTable) (s : ScorerState)
    (relics : List Relic) : ScorerState :=
  relics.foldl (push_relic score_table) s

/-- Undo a single change-log entry (the four `pop_context` branches). -/
def undoOne (s : ScorerState) : ScorerState :=
  match s.log with
  | [] => s
  | c :: rest =>
    match c with
    | .score v => { s with current_score := s.current_score - v, log := rest }
    | .seen k => { s with seen_keys := s.seen_keys.erase k, log := rest }
    | .exclusiveFlag t =>
      { s with exclusive_taken := s.exclusive_taken.erase t, log := rest }
    | .pushEffect _ =>
      { s with active_effects_stack := s.active_effects_stack.dropLast,
               log := rest }

/-- Length of the log after one undo. -/
theorem undoOne_log_length (s : ScorerState) :
    (undoOne s).log.length = s.log.length - 1 := by
  unfold undoOne
  match h : s.log with
  | [] => simp [h]
  | c :: rest => cases c <;> simp [h]

/-- The `pop_context` while-loop, fuelled by the log length (each undo
shortens the log by one, so `s.log.length` rounds always suffice; the
explicit fuel keeps the definition structurally recursive). -/
def popLoop : Nat → ScorerState → Nat → ScorerState
  | 0, s, _ => s
  | n + 1, s, token =>
    if s.log.length ≤ token then s else popLoop n (undoOne s) token

/-- Method `IncrementalScorer.pop_context`: undo entries while the log is longer
than the token (`push_context` returns the log length as the token). -/
def pop_context (s : ScorerState) (token : Nat) : ScorerState :=
  popLoop s.log.length s token

mutual

/-- Modelled from the spec: the slot-pattern trie (§3 `VesselTree`) that
build_finder.py imports from the newer nightreign.py absent from src/ —
each node carries an optional completion `name` (`""` = unnamed, matching
Python truthiness) and edges keyed by concrete `Color` or wildcard `none`,
in insertion order, exactly the shape of src/'s older `UrnTree` (the edge
dict is represented as its ordered item list, here a mutually inductive
cons-list so that recursion over the tree stays structural). -/
inductive VesselTree where
  | mk (name : String) (next : EdgeList)

/-- The ordered edge items of a trie node. -/
inductive EdgeList where
  | nil
  | cons (key : Option Color) (child : VesselTree) (rest : EdgeList)

end

/-- The edge items as an ordinary list of pairs. -/
def EdgeList.toList : EdgeList → List (Option Color × VesselTree)
  | .nil => []
  | .cons key child rest => (key, child) :: rest.toList

/-- Node name accessor. -/
def VesselTree.name : VesselTree → String
  | .mk n _ => n

/-- Outgoing edges accessor (`node.next.items()` in insertion order). -/
def VesselTree.next : VesselTree → List (Option Color × VesselTree)
  | .mk _ c => c.toList

mutual

/-- Number of nodes; used as recursion fuel for the depth-first search
(it strictly exceeds the height, the maximal recursion depth). -/
def treeSize : VesselTree → Nat
  | .mk _ next => 1 + edgesSize next

/-- Total node count of the children of an edge list. -/
def edgesSize : EdgeList → Nat
  | .nil => 0
  | .cons _ child rest => treeSize child + edgesSize rest

end

mutual

/-- Function `remaining_depth`: longest path to a leaf — 0 for a childless node,
otherwise the maximum over children of one plus their depth
(`depth_cached` is a pure memoisation of this function and is not
modelled separately). -/
def remaining_depth : VesselTree → Nat
  | .mk _ next => remainingDepthEdges next

/-- Maximum over an edge list of one plus the child's depth. -/
def remainingDepthEdges : EdgeList → Nat
  | .nil => 0
  | .cons _ child rest =>
    max (remaining_depth child + 1) (remainingDepthEdges rest)

end

/-- Record `ScoredRelic` from build_finder.py. -/
structure ScoredRelic where
  relic : Relic
  score : Int
deriving DecidableEq, Repr

/-- Fields of `BuildFinder` after `__post_init__`: the (already lowercase)
score table and the prune-filtered scored relics. -/
structure BuildFinder where
  score_table : ScoreTable
  scored_relics : List ScoredRelic

/-- The relic pre-filter of `BuildFinder.__post_init__`: keep each relic
whose standalone `get_scored_effects` score reaches `prune`.  (The json5
decoding of the table and the root-is-dict check are I/O outside the
claims; the table is taken as the constructed mapping.) -/
def mkBuildFinder (relics : List Relic) (score_table : ScoreTable)
    (prune : Int) : BuildFinder :=
  ⟨score_table,
   relics.filterMap fun relic =>
     let score := (get_scored_effects relic.effects_and_curses score_table).score
     if score ≥ prune then some ⟨relic, score⟩ else none⟩

/-- The read-only data the nested search functions close over: the scored
relic pool, the two pre-sorted candidate indexes, the table and the
minimum threshold. -/
structure SearchCtx where
  score_table : ScoreTable
  scored_relics : List ScoredRelic
  positions_by_color : Color → List Nat
  all_non_deep_positions : List Nat
  minimum : Int

/-- Standalone score of the relic at an index (indices produced by the
search are always in range; out of range defaults are never reached). -/
def relicScoreAt (ctx : SearchCtx) (i : Nat) : Int :=
  (ctx.scored_relics.getD i ⟨⟨.unknown, []⟩, 0⟩).score

/-- The relic at an index. -/
def relicAt (ctx : SearchCtx) (i : Nat) : Relic :=
  (ctx.scored_relics.getD i ⟨⟨.unknown, []⟩, 0⟩).relic

/-- Candidate index list for an edge: the wildcard pool for `none`, the
per-color pool otherwise (`positions_by_color.get(color, [])`). -/
def candidatesOf (ctx : SearchCtx) : Option Color → List Nat
  | none => ctx.all_non_deep_positions
  | some color => ctx.positions_by_color color

/-- Function `optimistic_bound` from build_finder.py: filter the pre-sorted pool to
unused indices and sum the first `remaining_slots` standalone scores. -/
def optimistic_bound (ctx : SearchCtx) (used : List Bool)
    (remaining_slots : Int) (key : Option Color) : Int :=
  if remaining_slots ≤ 0 then 0
  else
    let pool := (candidatesOf ctx key).filter fun i => ¬(used.getD i false)
    if pool.isEmpty then 0
    else ((pool.map (relicScoreAt ctx)).take remaining_slots.toNat).sum

/-- The level loop of `path_bound`: at each level take the best
single-step bound over every edge of every node under consideration
(edges in insertion order), stop on exhausted depth or when no node has
an edge (`seen_any` false exactly when the flattened edge list is empty). -/
def pathBoundLoop (ctx : SearchCtx) (used : List Bool) :
    List VesselTree → Nat → Int
  | _, 0 => 0
  | nodes, d + 1 =>
    let edges := nodes.flatMap VesselTree.next
    if edges.isEmpty then 0
    else
      (edges.foldl
        (fun acc e => max acc (optimistic_bound ctx used 1 e.1)) 0) +
      pathBoundLoop ctx used (edges.map (·.2)) d

/-- Function `path_bound` from build_finder.py. -/
def path_bound (ctx : SearchCtx) (used : List Bool) (node : VesselTree)
    (depth_from_here : Nat) : Int :=
  pathBoundLoop ctx used [node] depth_from_here

/-- The sort key for edge traversal:
`sorted(node.next.keys(), key=lambda k: (k is None, str(k)))`. -/
def edgeLe (a b : Option Color) : Bool :=
  let pa := (if a.isNone then 1 else 0, (a.map Color.str).getD "None")
  let pb := (if b.isNone then 1 else 0, (b.map Color.str).getD "None")
  pa.1 < pb.1 ∨ (pa.1 = pb.1 ∧ pa.2 ≤ pb.2)

/-- Stable insertion for the edge sort. -/
def insertEdge (x : Option Color × VesselTree) :
    List (Option Color × VesselTree) → List (Option Color × VesselTree)
  | [] => [x]
  | y :: ys => if edgeLe x.1 y.1 then x :: y :: ys else y :: insertEdge x ys

/-- Deterministic edge order: concrete colors sorted by their string
first, wildcard last. -/
def sortEdges : List (Option Color × VesselTree) →
    List (Option Color × VesselTree)
  | [] => []
  | x :: xs => insertEdge x (sortEdges xs)

/-- The mutable state threaded through `depth_first_search`: the per-relic
`used` flags, the chosen indices of the current path, the incremental
scorer, and the top-K heap. -/
structure SearchState where
  used : List Bool
  chosen_indices : List (Option Nat)
  scorer : ScorerState
  top : BuildHeap

/-- One iteration of the candidate loop of `depth_first_search`
(build_finder.py lines 552-581), folded over the edge's candidate list
with accumulator `(used_any, state-or-exception)` (`none` = a raised
`IndexError` unwinding the search): skip a used candidate; otherwise
checkpoint, mark used, append the index, push the relic, recurse via
`recurse` when the refreshed bound still clears the bar, then backtrack
(pop the chosen index, unmark, `pop_context`). -/
def dfsCandStep (ctx : SearchCtx) (bar : Int) (child : VesselTree)
    (recurse : SearchState → Option SearchState)
    (acc : Bool × Option SearchState) (index : Nat) :
    Bool × Option SearchState :=
  match acc with
  | (used_any, none) => (used_any, none)
  | (used_any, some s) =>
    if s.used.getD index false then (used_any, some s)
    else
      let token := s.scorer.log.length
      let s1 : SearchState :=
        { s with used := s.used.set index true,
                 chosen_indices := s.chosen_indices ++ [some index],
                 scorer :=
                   push_relic ctx.score_table s.scorer (relicAt ctx index) }
      let after : Option SearchState :=
        if s1.scorer.current_score +
            path_bound ctx s1.used child (remaining_depth child) ≥ bar then
          recurse s1
        else some s1
      match after with
      | none => (true, none)
      | some s2 =>
        (true,
         some { s2 with chosen_indices := s2.chosen_indices.dropLast,
                        used := s2.used.set index false,
                        scorer := pop_context s2.scorer token })

/-- One iteration of the edge loop of `depth_first_search`
(build_finder.py lines 538-587): select the candidate pool for the edge
key, run the candidate loop, and if no candidate was usable recurse into
the child with the explicit empty-slot marker — for every edge, concrete
or wildcard. -/
def dfsEdgeStep (ctx : SearchCtx) (bar : Int)
    (recurse : VesselTree → SearchState → Option SearchState)
    (acc : Option SearchState) (edge : Option Color × VesselTree) :
    Option SearchState :=
  match acc with
  | none => none
  | some s =>
    match (candidatesOf ctx edge.1).foldl
        (dfsCandStep ctx bar edge.2 (recurse edge.2)) (false, some s) with
    | (_, none) => none
    | (used_any, some s) =>
      if used_any then some s
      else
        match recurse edge.2
            { s with chosen_indices := s.chosen_indices ++ [none] } with
        | none => none
        | some s' =>
          some { s' with chosen_indices := s'.chosen_indices.dropLast }

/-- Function `depth_first_search` from build_finder.py (`top_builds`, lines
510-588), with explicit fuel for the recursion into child nodes (the
caller passes `treeSize`, which exceeds every recursion depth, so the
out-of-fuel `none` is never reached): consider the node's build, compute
the acceptance bar (reading `_heap[0]` — `none` models its `IndexError`
on an empty full heap), prune the subtree against `path_bound`, then
fold the edge loop over the deterministically sorted edges. -/
def depth_first_search (ctx : SearchCtx) : Nat → VesselTree →
    SearchState → Option SearchState
  | 0, _, _ => none
  | fuel + 1, node, s =>
    let afterConsider : Option SearchState :=
      if node.name ≠ "" then
        let current_build : Build :=
          ⟨s.scorer.active_effects_stack, s.scorer.current_score,
           node.name, s.chosen_indices⟩
        if current_build.score ≥ ctx.minimum then
          match consider s.top current_build with
          | none => none
          | some top => some { s with top := top }
        else some s
      else some s
    match afterConsider with
    | none => none
    | some s =>
      if node.next.isEmpty then some s
      else
        let bar : Option Int :=
          if (s.top.heap.length : Int) = s.top.max_size then
            match s.top.heap with
            | [] => none
            | root :: _ => some (max ctx.minimum root.score)
          else some ctx.minimum
        match bar with
        | none => none
        | some bar =>
          if s.scorer.current_score +
              path_bound ctx s.used node (remaining_depth node) < bar then
            some s
          else
            (sortEdges node.next).foldl
              (dfsEdgeStep ctx bar
                (fun child s' => depth_first_search ctx fuel child s'))
              (some s)

/-- The candidate-index preparation of `top_builds` (steps 1 and 2):
per-color positions in index order, the non-deep wildcard pool, both
stably sorted by descending standalone score. -/
def mkSearchCtx (bf : BuildFinder) (minimum : Int) : SearchCtx :=
  let score := fun i => (bf.scored_relics.getD i ⟨⟨.unknown, []⟩, 0⟩).score
  let indexes := List.range bf.scored_relics.length
  ⟨bf.score_table, bf.scored_relics,
   fun color =>
     sortDescBy score (indexes.filter fun i =>
       (bf.scored_relics.getD i ⟨⟨.unknown, []⟩, 0⟩).relic.color = color),
   sortDescBy score (indexes.filter fun i =>
     ¬((bf.scored_relics.getD i ⟨⟨.unknown, []⟩, 0⟩).relic.color.is_deep)),
   minimum⟩

/-- Method `BuildFinder.top_builds` (the optional progress bar is observational
and omitted): run the depth-first search from a fresh state and return
the heap contents sorted by descending score.  `none` models an
`IndexError` escaping the search. -/
def top_builds (bf : BuildFinder) (vessel_tree : VesselTree)
    (count minimum : Int) : Option (List Build) :=
  let ctx := mkSearchCtx bf minimum
  let s0 : SearchState :=
    ⟨List.replicate bf.scored_relics.length false, [], initScorer,
     ⟨count, [], ∅⟩⟩
  match depth_first_search ctx (treeSize vessel_tree) vessel_tree s0 with
  | none => none
  | some s => some (results_desc s.top)

/-- Modelled from the spec: the candidate loop of the exhaustive
(unpruned) enumeration — as `dfsCandStep` but with the bound check
removed, always recursing after a push. -/
def exhaustiveCandStep (ctx : SearchCtx) (child : VesselTree)
    (recurse : SearchState → Option SearchState)
    (acc : Bool × Option SearchState) (index : Nat) :
    Bool × Option SearchState :=
  match acc with
  | (used_any, none) => (used_any, none)
  | (used_any, some s) =>
    if s.used.getD index false then (used_any, some s)
    else
      let token := s.scorer.log.length
      let s1 : SearchState :=
        { s with used := s.used.set index true,
                 chosen_indices := s.chosen_indices ++ [some index],
                 scorer :=
                   push_relic ctx.score_table s.scorer (relicAt ctx index) }
      match recurse s1 with
      | none => (true, none)
      | some s2 =>
        (true,
         some { s2 with chosen_indices := s2.chosen_indices.dropLast,
                        used := s2.used.set index false,
                        scorer := pop_context s2.scorer token })

/-- Modelled from the spec: the edge loop of the exhaustive enumeration
(as `dfsEdgeStep` without the bar). -/
def exhaustiveEdgeStep (ctx : SearchCtx)
    (recurse : VesselTree → SearchState → Option SearchState)
    (acc : Option SearchState) (edge : Option Color × VesselTree) :
    Option SearchState :=
  match acc with
  | none => none
  | some s =>
    match (candidatesOf ctx edge.1).foldl
        (exhaustiveCandStep ctx edge.2 (recurse edge.2)) (false, some s) with
    | (_, none) => none
    | (used_any, some s) =>
      if used_any then some s
      else
        match recurse edge.2
            { s with chosen_indices := s.chosen_indices ++ [none] } with
        | none => none
        | some s' =>
          some { s' with chosen_indices := s'.chosen_indices.dropLast }

/-- Modelled from the spec: the exhaustive (unpruned) enumeration that §8's
pruning-soundness property compares against — the same traversal of the
same trie and relic pool as `depth_first_search`, with the acceptance-bar
computation and both optimistic-bound prune checks removed, collecting
into the same top-K heap under the same minimum. -/
def exhaustive_search (ctx : SearchCtx) : Nat → VesselTree →
    SearchState → Option SearchState
  | 0, _, _ => none
  | fuel + 1, node, s =>
    let afterConsider : Option SearchState :=
      if node.name ≠ "" then
        let current_build : Build :=
          ⟨s.scorer.active_effects_stack, s.scorer.current_score,
           node.name, s.chosen_indices⟩
        if current_build.score ≥ ctx.minimum then
          match consider s.top current_build with
          | none => none
          | some top => some { s with top := top }
        else some s
      else some s
    match afterConsider with
    | none => none
    | some s =>
      if node.next.isEmpty then some s
      else
        (sortEdges node.next).foldl
          (exhaustiveEdgeStep ctx
            (fun child s' => exhaustive_search ctx fuel child s'))
          (some s)

/-- Modelled from the spec: `top_builds` with pruning disabled (§8). -/
def exhaustive_top_builds (bf : BuildFinder) (vessel_tree : VesselTree)
    (count minimum : Int) : Option (List Build) :=
  let ctx := mkSearchCtx bf minimum
  let s0 : SearchState :=
    ⟨List.replicate bf.scored_relics.length false, [], initScorer,
     ⟨count, [], ∅⟩⟩
  match exhaustive_search ctx (treeSize vessel_tree) vessel_tree s0 with
  | none => none
  | some s => some (results_desc s.top)

/-!  Concrete inputs used by the evaluation theorems below. -/

/-- A table with a bare-name score and a `"+*"` wildcard score for `"a"`. -/
def wildcardTable : ScoreTable :=
  fun s => if s = "a" then some 50 else if s = "a +*" then some 1 else none

/-- A single stackable, non-exclusive effect named `"a"` at level 0. -/
def stackEffect : Effect := ⟨"a", 0, true, none⟩

/-- A red relic carrying only `stackEffect`. -/
def redRelic : Relic := ⟨.red, [stackEffect]⟩

/-- A leaf node completing the pattern `"V"`. -/
def vesselLeaf : VesselTree := .mk "V" .nil

/-- A one-slot trie: a single concrete red edge into the `"V"` leaf. -/
def redEdgeTree : VesselTree := .mk "" (.cons (some .red) vesselLeaf .nil)

/-- The finder over `[redRelic]`, `wildcardTable`, prune 1 (`redRelic`'s
standalone score is 1, via the wildcard entry, so it survives). -/
def finderC1 : BuildFinder := mkBuildFinder [redRelic] wildcardTable 1

/-- An empty score table. -/
def emptyTable : ScoreTable := fun _ => none

/-- A finder with an empty relic pool. -/
def finderEmpty : BuildFinder := mkBuildFinder [] emptyTable 0

/-- A childless unnamed root node. -/
def lonelyNode : VesselTree := .mk "" .nil

/-- A table scoring the bare name `"a"`. -/
def exclTable : ScoreTable := fun s => if s = "a" then some 5 else none

/-- A relic whose second effect is blocked by an already-consumed
exclusivity tag while sharing its (name, level) key with the third. -/
def exclRelic : Relic :=
  ⟨.red, [⟨"b", 0, false, some "imbue"⟩, ⟨"a", 0, false, some "imbue"⟩,
          ⟨"a", 0, false, none⟩]⟩

/-- C1: the pruned branch-and-bound search does not return the same build
set as the unpruned exhaustive enumeration.  On `finderC1` / `redEdgeTree`
with K = 1, minimum = 2: the subtree bound uses `redRelic`'s standalone
score 1 (`get_scored_effects` resolves `"a" +0` through the `"a +*"`
wildcard entry), but pushing the relic adds 50 (`_score_of` has no
wildcard step and falls back to the bare `"a"` score), so the bound the
code's comments call a "safe upper bound" underestimates, the root subtree
is pruned, and the score-50 build that exhaustive enumeration collects is
lost. -/
theorem c1_pruned_search_misses_build :
    top_builds finderC1 redEdgeTree 1 2 = some [] ∧
    exhaustive_top_builds finderC1 redEdgeTree 1 2 =
      some [⟨[stackEffect], 50, "V", [some 0]⟩] := by
  constructor <;> rfl

/-- C4: `IncrementalScorer._score_of` does not implement lookup step (2):
on an effect named `"a"` at level 0 under a table whose only entry is the
wildcard `"a +*" ↦ 7`, it returns 0 (qualified miss, then bare-name miss
times `level + 1`), while the standalone scoring function returns 7
through the wildcard entry. -/
theorem c4_score_of_skips_wildcard :
    score_of (fun s => if s = "a +*" then some 7 else none) stackEffect = 0 ∧
    (get_scored_effects [stackEffect]
      (fun s => if s = "a +*" then some 7 else none)).score = 7 := by
  constructor <;> rfl

/-- C8 counterexample: a non-positive result count is not detected at the
search entry point — `top_builds` with K = 0 on a childless trie performs
the (trivial) search and returns normally with an empty list instead of
surfacing a configuration error. -/
theorem c8_counterexample :
    top_builds finderEmpty lonelyNode 0 7 = some [] := by
  rfl

/-- C8 amended: `top_builds` validates neither the count nor the
thresholds.  A K = 0 search may return normally (childless trie), or fail
only in mid-search with an `IndexError` when the acceptance bar reads
`_heap[0]` of the empty full heap (trie with edges), and a negative
minimum is processed without error. -/
theorem c8_no_entry_validation :
    top_builds finderEmpty lonelyNode 0 0 = some [] ∧
    top_builds finderC1 redEdgeTree 0 0 = none ∧
    top_builds finderC1 redEdgeTree 1 (-1) =
      some [⟨[stackEffect], 50, "V", [some 0]⟩] := by
  refine ⟨?_, ?_, ?_⟩ <;> rfl

/-- C9: on a `BuildHeap` of `max_size` 0 every `consider` call (its
signature set is empty, so no signature is ever recorded) raises
`IndexError` by reading `_heap[0]` of the empty heap; with
`max_size ≥ 1`, `consider` always returns. -/
theorem c9_consider_empty_heap :
    (∀ build : Build, consider ⟨0, [], ∅⟩ build = none) ∧
    (∀ (h : BuildHeap) (build : Build), 1 ≤ h.max_size →
      (consider h build).isSome = true) := by
  constructor
  · intro build
    simp [consider]
  · intro h build hK
    unfold consider
    by_cases hsig : signatureOf build ∈ h.signatures
    · simp [hsig]
    · simp only [hsig, if_false]
      by_cases hlen : (h.heap.length : Int) < h.max_size
      · simp [hlen]
      · simp only [hlen, if_false]
        rcases hh : h.heap with _ | ⟨root, rest⟩
        · exfalso
          rw [hh] at hlen
          simp only [List.length_nil, Nat.cast_zero, not_lt] at hlen
          omega
        · by_cases hgt : build.score > root.score <;> simp [hgt]

/-- Witness for C9 at a concrete zero-capacity heap and a concrete
one-capacity heap. -/
theorem c9_consider_empty_heap_witness :
    consider ⟨0, [], ∅⟩ ⟨[], 0, "V", []⟩ = none ∧
    (consider ⟨1, [], ∅⟩ ⟨[], 0, "V", []⟩).isSome = true :=
  ⟨c9_consider_empty_heap.1 ⟨[], 0, "V", []⟩,
   c9_consider_empty_heap.2 ⟨1, [], ∅⟩ ⟨[], 0, "V", []⟩ (by decide)⟩

/-- C5 counterexample: on a trie whose only edge requires the concrete
color red, with an empty relic pool, the search does not skip the edge —
it recurses with the empty-slot marker and returns a build whose only
slot is `none`. -/
theorem c5_counterexample :
    top_builds finderEmpty redEdgeTree 1 0 =
      some [⟨[], 0, "V", [none]⟩] := by
  rfl

/-- C2 counterexample: one pushed relic (`exclRelic`) on which the
incremental scorer's final `current_score` is 5 while the standalone
scoring function on the same effect sequence returns 0: the standalone
function records the exclusivity-blocked second effect's (name, level)
key in `seen` and therefore also blocks the third effect, while
`push_relic` skips the blocked effect before recording anything and then
scores the third. -/
theorem c2_counterexample :
    (pushRelics exclTable initScorer [exclRelic]).current_score = 5 ∧
    (get_scored_effects ([exclRelic].flatMap Relic.effects_and_curses)
      exclTable).score = 0 := by
  constructor <;> rfl

/-!  Exact rollback of the incremental scorer (C3). -/

/-- The function `pop_context` is the identity when the log is no longer than the
token. -/
theorem pop_context_le (s : ScorerState) (token : Nat)
    (h : s.log.length ≤ token) : pop_context s token = s := by
  unfold pop_context
  cases hn : s.log.length with
  | zero => rfl
  | succ n =>
    simp only [popLoop]
    rw [if_pos h]

/-- The loop `popLoop` does not depend on the fuel once it covers the log length. -/
theorem popLoop_fuel (n : Nat) : ∀ (m : Nat) (s : ScorerState) (token : Nat),
    s.log.length ≤ n → s.log.length ≤ m →
    popLoop n s token = popLoop m s token := by
  induction n with
  | zero =>
    intro m s token hn hm
    cases m with
    | zero => rfl
    | succ m =>
      have h0 : s.log.length = 0 := by omega
      simp [popLoop, h0]
  | succ n ih =>
    intro m s token hn hm
    cases m with
    | zero =>
      have h0 : s.log.length = 0 := by omega
      simp [popLoop, h0]
    | succ m =>
      by_cases h : s.log.length ≤ token
      · simp [popLoop, h]
      · simp only [popLoop, h, if_false]
        exact ih m (undoOne s) token
          (by rw [undoOne_log_length]; omega)
          (by rw [undoOne_log_length]; omega)

/-- The defining unfolding of `pop_context` as the while loop of the
source. -/
theorem pop_context_unfold (s : ScorerState) (token : Nat) :
    pop_context s token =
      if s.log.length ≤ token then s else pop_context (undoOne s) token := by
  by_cases h : s.log.length ≤ token
  · rw [if_pos h, pop_context_le s token h]
  · rw [if_neg h]
    unfold pop_context
    cases hn : s.log.length with
    | zero => omega
    | succ n =>
      simp only [popLoop]
      rw [if_neg h]
      exact popLoop_fuel n (undoOne s).log.length (undoOne s) token
        (by rw [undoOne_log_length, hn]; omega) (le_refl _)

/-- Popping to an earlier token factors through popping to a later one. -/
theorem pop_context_trans (s : ScorerState) (t t' : Nat) (h : t ≤ t') :
    pop_context (pop_context s t') t = pop_context s t := by
  generalize hn : s.log.length = n
  induction n using Nat.strong_induction_on generalizing s with
  | _ n ih =>
    by_cases h' : s.log.length ≤ t'
    · rw [pop_context_le s t' h']
    · rw [pop_context_unfold s t', if_neg h',
          pop_context_unfold s t, if_neg (by omega)]
      exact ih (undoOne s).log.length
        (by rw [undoOne_log_length]; omega) (undoOne s) rfl

/-- Undoing a logged effect push restores the active stack. -/
theorem popPushEffectChange (sc : Int) (sk : Finset (String × Nat))
    (et : Finset String) (ae : List Effect) (lg : List Change) (e : Effect)
    (token : Nat) (h : token ≤ lg.length) :
    pop_context ⟨sc, sk, et, ae ++ [e], .pushEffect e :: lg⟩ token =
      pop_context ⟨sc, sk, et, ae, lg⟩ token := by
  have hlen : ¬((⟨sc, sk, et, ae ++ [e], .pushEffect e :: lg⟩ :
      ScorerState).log.length ≤ token) := by
    simp; omega
  rw [pop_context_unfold, if_neg hlen]
  simp [undoOne, List.dropLast_concat]

/-- Undoing a logged score change restores the running score. -/
theorem popScoreChange (sc : Int) (sk : Finset (String × Nat))
    (et : Finset String) (ae : List Effect) (lg : List Change) (v : Int)
    (token : Nat) (h : token ≤ lg.length) :
    pop_context ⟨sc + v, sk, et, ae, .score v :: lg⟩ token =
      pop_context ⟨sc, sk, et, ae, lg⟩ token := by
  have hlen : ¬((⟨sc + v, sk, et, ae, .score v :: lg⟩ :
      ScorerState).log.length ≤ token) := by
    simp; omega
  rw [pop_context_unfold, if_neg hlen]
  simp [undoOne]

/-- Undoing a logged seen-key record restores the seen set (the key was
absent when it was recorded). -/
theorem popSeenChange (sc : Int) (sk : Finset (String × Nat))
    (et : Finset String) (ae : List Effect) (lg : List Change)
    (k : String × Nat) (token : Nat) (h : token ≤ lg.length)
    (hk : k ∉ sk) :
    pop_context ⟨sc, insert k sk, et, ae, .seen k :: lg⟩ token =
      pop_context ⟨sc, sk, et, ae, lg⟩ token := by
  have hlen : ¬((⟨sc, insert k sk, et, ae, .seen k :: lg⟩ :
      ScorerState).log.length ≤ token) := by
    simp; omega
  rw [pop_context_unfold, if_neg hlen]
  simp [undoOne, Finset.erase_insert hk]

/-- Undoing a logged exclusive-flag record restores the taken set (the
tag was absent when it was recorded). -/
theorem popExclChange (sc : Int) (sk : Finset (String × Nat))
    (et : Finset String) (ae : List Effect) (lg : List Change)
    (tag : String) (token : Nat) (h : token ≤ lg.length)
    (htag : tag ∉ et) :
    pop_context ⟨sc, sk, insert tag et, ae, .exclusiveFlag tag :: lg⟩ token =
      pop_context ⟨sc, sk, et, ae, lg⟩ token := by
  have hlen : ¬((⟨sc, sk, insert tag et, ae, .exclusiveFlag tag :: lg⟩ :
      ScorerState).log.length ≤ token) := by
    simp; omega
  rw [pop_context_unfold, if_neg hlen]
  simp [undoOne, Finset.erase_insert htag]

/-- Undoing everything a single `pushEffect` logged restores the state. -/
theorem pushEffect_pop (score_table : ScoreTable) (s : ScorerState)
    (e : Effect) :
    pop_context (pushEffect score_table s e) s.log.length = s := by
  obtain ⟨sc, sk, et, ae, lg⟩ := s
  obtain ⟨nm, lv, st, ex⟩ := e
  cases st with
  | false =>
    by_cases hk : (nm, lv) ∈ sk
    · simp [pushEffect, hk]
      exact pop_context_le _ _ (le_refl _)
    · cases ex with
      | none =>
        by_cases hv : score_of score_table ⟨nm, lv, false, none⟩ ≠ 0
        · simp [pushEffect, hk, hv]
          rw [popPushEffectChange _ _ _ _ _ _ _
                (by simp only [List.length_cons]; omega),
              popScoreChange _ _ _ _ _ _ _
                (by simp only [List.length_cons]; omega),
              popSeenChange _ _ _ _ _ _ _ (le_refl _) hk]
          exact pop_context_le _ _ (le_refl _)
        · simp [pushEffect, hk, hv]
          rw [popPushEffectChange _ _ _ _ _ _ _
                (by simp only [List.length_cons]; omega),
              popSeenChange _ _ _ _ _ _ _ (le_refl _) hk]
          exact pop_context_le _ _ (le_refl _)
      | some tag =>
        by_cases htag : tag ∈ et
        · simp [pushEffect, hk, htag]
          exact pop_context_le _ _ (le_refl _)
        · by_cases hv : score_of score_table ⟨nm, lv, false, some tag⟩ ≠ 0
          · simp [pushEffect, hk, htag, hv]
            rw [popPushEffectChange _ _ _ _ _ _ _
                  (by simp only [List.length_cons]; omega),
                popScoreChange _ _ _ _ _ _ _
                  (by simp only [List.length_cons]; omega),
                popExclChange _ _ _ _ _ _ _
                  (by simp only [List.length_cons]; omega) htag,
                popSeenChange _ _ _ _ _ _ _ (le_refl _) hk]
            exact pop_context_le _ _ (le_refl _)
          · simp [pushEffect, hk, htag, hv]
            rw [popPushEffectChange _ _ _ _ _ _ _
                  (by simp only [List.length_cons]; omega),
                popExclChange _ _ _ _ _ _ _
                  (by simp only [List.length_cons]; omega) htag,
                popSeenChange _ _ _ _ _ _ _ (le_refl _) hk]
            exact pop_context_le _ _ (le_refl _)
  | true =>
    cases ex with
    | none =>
      by_cases hv : score_of score_table ⟨nm, lv, true, none⟩ ≠ 0
      · simp [pushEffect, hv]
        rw [popPushEffectChange _ _ _ _ _ _ _
              (by simp only [List.length_cons]; omega),
            popScoreChange _ _ _ _ _ _ _ (le_refl _)]
        exact pop_context_le _ _ (le_refl _)
      · simp [pushEffect, hv]
        rw [popPushEffectChange _ _ _ _ _ _ _ (le_refl _)]
        exact pop_context_le _ _ (le_refl _)
    | some tag =>
      by_cases htag : tag ∈ et
      · simp [pushEffect, htag]
        exact pop_context_le _ _ (le_refl _)
      · by_cases hv : score_of score_table ⟨nm, lv, true, some tag⟩ ≠ 0
        · simp [pushEffect, htag, hv]
          rw [popPushEffectChange _ _ _ _ _ _ _
                (by simp only [List.length_cons]; omega),
              popScoreChange _ _ _ _ _ _ _
                (by simp only [List.length_cons]; omega),
              popExclChange _ _ _ _ _ _ _ (le_refl _) htag]
          exact pop_context_le _ _ (le_refl _)
        · simp [pushEffect, htag, hv]
          rw [popPushEffectChange _ _ _ _ _ _ _
                (by simp only [List.length_cons]; omega),
              popExclChange _ _ _ _ _ _ _ (le_refl _) htag]
          exact pop_context_le _ _ (le_refl _)

/-- The operation `pushEffect` never shortens the log. -/
theorem pushEffect_log_le (score_table : ScoreTable) (s : ScorerState)
    (e : Effect) : s.log.length ≤ (pushEffect score_table s e).log.length := by
  obtain ⟨sc, sk, et, ae, lg⟩ := s
  obtain ⟨nm, lv, st, ex⟩ := e
  cases st <;> cases ex <;>
    (simp only [pushEffect]; split_ifs <;> simp <;> try omega)

/-- A fold of `pushEffect` never shortens the log. -/
theorem pushEffects_log_le (score_table : ScoreTable) (l : List Effect) :
    ∀ s : ScorerState,
      s.log.length ≤ (l.foldl (pushEffect score_table) s).log.length := by
  induction l with
  | nil => intro s; exact le_refl _
  | cons e l ih =>
    intro s
    exact le_trans (pushEffect_log_le score_table s e)
      (ih (pushEffect score_table s e))

/-- Undoing everything a fold of `pushEffect` logged restores the state. -/
theorem pushEffects_pop (score_table : ScoreTable) (l : List Effect) :
    ∀ s : ScorerState,
      pop_context (l.foldl (pushEffect score_table) s) s.log.length = s := by
  induction l with
  | nil => intro s; exact pop_context_le _ _ (le_refl _)
  | cons e l ih =>
    intro s
    have h1 := pushEffect_log_le score_table s e
    calc pop_context (l.foldl (pushEffect score_table)
          (pushEffect score_table s e)) s.log.length
        = pop_context (pop_context (l.foldl (pushEffect score_table)
            (pushEffect score_table s e))
            (pushEffect score_table s e).log.length) s.log.length := by
          rw [pop_context_trans _ _ _ h1]
      _ = pop_context (pushEffect score_table s e) s.log.length := by
          rw [ih (pushEffect score_table s e)]
      _ = s := pushEffect_pop score_table s e

/-- The operation `push_relic` never shortens the log. -/
theorem push_relic_log_le (score_table : ScoreTable) (s : ScorerState)
    (relic : Relic) :
    s.log.length ≤ (push_relic score_table s relic).log.length :=
  pushEffects_log_le score_table relic.effects_and_curses s

/-- C3: for every starting scorer state and every sequence of `push_relic`
calls, `pop_context` with the token `push_context` returned at the start
(the log length) restores the scorer exactly — `current_score`,
`seen_keys`, `exclusive_taken`, `active_effects` and the change log are
all bit-identical to the checkpointed state. -/
theorem c3_pop_context_restores (score_table : ScoreTable)
    (s : ScorerState) (relics : List Relic) :
    pop_context (pushRelics score_table s relics) s.log.length = s := by
  induction relics generalizing s with
  | nil => exact pop_context_le _ _ (le_refl _)
  | cons relic rest ih =>
    have h1 := push_relic_log_le score_table s relic
    calc pop_context (pushRelics score_table
          (push_relic score_table s relic) rest) s.log.length
        = pop_context (pop_context (pushRelics score_table
            (push_relic score_table s relic) rest)
            (push_relic score_table s relic).log.length) s.log.length := by
          rw [pop_context_trans _ _ _ h1]
      _ = pop_context (push_relic score_table s relic) s.log.length := by
          rw [ih (push_relic score_table s relic)]
      _ = s := pushEffects_pop score_table relic.effects_and_curses s

/-!  The empty-slot fallback (C5). -/

/-- The candidate fold leaves the accumulator untouched when every
candidate index is already marked used. -/
theorem dfsCandStep_all_used (ctx : SearchCtx) (bar : Int)
    (child : VesselTree) (recurse : SearchState → Option SearchState) :
    ∀ (cands : List Nat) (s : SearchState),
      (∀ i ∈ cands, s.used.getD i false = true) →
      cands.foldl (dfsCandStep ctx bar child recurse) (false, some s) =
        (false, some s) := by
  intro cands
  induction cands with
  | nil => intro s _; rfl
  | cons i rest ih =>
    intro s h
    have hi : s.used.getD i false = true := h i (by simp)
    simp only [List.foldl_cons]
    rw [show dfsCandStep ctx bar child recurse (false, some s) i =
          (false, some s) from by
        simp only [dfsCandStep]
        rw [if_pos hi]]
    exact ih s (fun j hj => h j (by simp [hj]))

/-- C5 (amended): whenever no unused candidate matches an edge — whatever
its key, concrete color or wildcard — the edge step of
`depth_first_search` recurses into the edge's child with the explicit
empty-slot marker appended, then pops it. -/
theorem c5_empty_slot_any_edge (ctx : SearchCtx) (bar : Int)
    (recurse : VesselTree → SearchState → Option SearchState)
    (edge : Option Color × VesselTree) (s : SearchState)
    (hall : ∀ i ∈ candidatesOf ctx edge.1, s.used.getD i false = true) :
    dfsEdgeStep ctx bar recurse (some s) edge =
      match recurse edge.2
          { s with chosen_indices := s.chosen_indices ++ [none] } with
      | none => none
      | some s' =>
        some { s' with chosen_indices := s'.chosen_indices.dropLast } := by
  unfold dfsEdgeStep
  simp only [dfsCandStep_all_used ctx bar edge.2 (recurse edge.2)
    (candidatesOf ctx edge.1) s hall]
  rfl

/-- Witness for C5 (amended) at a concrete red (non-wildcard) edge whose
candidate pool is empty. -/
theorem c5_empty_slot_any_edge_witness :
    dfsEdgeStep (mkSearchCtx finderEmpty 0) 0
      (fun child s' => depth_first_search (mkSearchCtx finderEmpty 0) 1
        child s')
      (some ⟨[], [], initScorer, ⟨1, [], ∅⟩⟩) (some .red, vesselLeaf) =
      match (fun child s' => depth_first_search (mkSearchCtx finderEmpty 0) 1
          child s') vesselLeaf
          { (⟨[], [], initScorer, ⟨1, [], ∅⟩⟩ : SearchState) with
            chosen_indices :=
              (⟨[], [], initScorer, ⟨1, [], ∅⟩⟩ :
                SearchState).chosen_indices ++ [none] } with
      | none => none
      | some s' =>
        some { s' with chosen_indices := s'.chosen_indices.dropLast } :=
  c5_empty_slot_any_edge (mkSearchCtx finderEmpty 0) 0
    (fun child s' => depth_first_search (mkSearchCtx finderEmpty 0) 1
      child s')
    (some .red, vesselLeaf) ⟨[], [], initScorer, ⟨1, [], ∅⟩⟩ (by decide)

/-!  The full-collector replacement policy (C6). -/

/-- The insertion `heapInsert` only reorders. -/
theorem heapInsert_perm (e : Entry) (l : List Entry) :
    (heapInsert e l).Perm (e :: l) := by
  induction l with
  | nil => exact List.Perm.refl _
  | cons x xs ih =>
    unfold heapInsert
    by_cases h : e.score < x.score
    · rw [if_pos h]
    · rw [if_neg h]
      exact (ih.cons x).trans (List.Perm.swap e x xs)

/-- C6: on a full collector (`len(heap) = max_size`, nonempty, sorted as
the heapq invariant guarantees) and a build with an unseen signature: the
head is a minimum-scoring entry; a strictly greater score replaces
exactly that entry (its signature erased, the new one recorded, the new
entry inserted in its place); a score equal to the minimum changes
nothing. -/
theorem c6_consider_full_heap (h : BuildHeap) (b : Build) (root : Entry)
    (rest : List Entry)
    (hheap : h.heap = root :: rest)
    (hsorted : h.heap.Pairwise (fun a b => a.score ≤ b.score))
    (hfull : (h.heap.length : Int) = h.max_size)
    (hnew : signatureOf b ∉ h.signatures) :
    (∀ e ∈ h.heap, root.score ≤ e.score) ∧
    (b.score > root.score →
      consider h b =
        some { h with
               heap := heapInsert ⟨b.score, b⟩ rest,
               signatures := insert (signatureOf b)
                 (h.signatures.erase (signatureOf root.build)) } ∧
      (heapInsert ⟨b.score, b⟩ rest).Perm (⟨b.score, b⟩ :: rest)) ∧
    (b.score = root.score → consider h b = some h) := by
  have hlen : ¬((h.heap.length : Int) < h.max_size) := by omega
  refine ⟨?_, fun hgt => ⟨?_, heapInsert_perm _ _⟩, fun heq => ?_⟩
  · intro e he
    rw [hheap] at hsorted he
    rcases List.mem_cons.mp he with rfl | hmem
    · exact le_refl _
    · exact (List.pairwise_cons.mp hsorted).1 e hmem
  · unfold consider
    rw [if_neg hnew, if_neg hlen, hheap]
    simp only [if_pos hgt]
  · unfold consider
    rw [if_neg hnew, if_neg hlen, hheap]
    have : ¬(b.score > root.score) := by omega
    simp only [if_neg this]

/-- Witness for C6 at a one-entry collector of capacity one and a
strictly better build. -/
theorem c6_consider_full_heap_witness :
    (∀ e ∈ (⟨1, [⟨0, ⟨[], 0, "w", []⟩⟩],
        {signatureOf ⟨[], 0, "w", []⟩}⟩ : BuildHeap).heap,
      (⟨0, ⟨[], 0, "w", []⟩⟩ : Entry).score ≤ e.score) ∧
    ((⟨[], 1, "w", []⟩ : Build).score >
        (⟨0, ⟨[], 0, "w", []⟩⟩ : Entry).score →
      consider ⟨1, [⟨0, ⟨[], 0, "w", []⟩⟩],
          {signatureOf ⟨[], 0, "w", []⟩}⟩ ⟨[], 1, "w", []⟩ =
        some { (⟨1, [⟨0, ⟨[], 0, "w", []⟩⟩],
            {signatureOf ⟨[], 0, "w", []⟩}⟩ : BuildHeap) with
               heap := heapInsert ⟨(⟨[], 1, "w", []⟩ : Build).score,
                 ⟨[], 1, "w", []⟩⟩ [],
               signatures := insert (signatureOf ⟨[], 1, "w", []⟩)
                 (({signatureOf ⟨[], 0, "w", []⟩} :
                   Finset Signature).erase
                   (signatureOf (⟨0, ⟨[], 0, "w", []⟩⟩ : Entry).build)) } ∧
      (heapInsert ⟨(⟨[], 1, "w", []⟩ : Build).score, ⟨[], 1, "w", []⟩⟩
        []).Perm (⟨(⟨[], 1, "w", []⟩ : Build).score,
          ⟨[], 1, "w", []⟩⟩ :: [])) ∧
    ((⟨[], 1, "w", []⟩ : Build).score =
        (⟨0, ⟨[], 0, "w", []⟩⟩ : Entry).score →
      consider ⟨1, [⟨0, ⟨[], 0, "w", []⟩⟩],
          {signatureOf ⟨[], 0, "w", []⟩}⟩ ⟨[], 1, "w", []⟩ =
        some ⟨1, [⟨0, ⟨[], 0, "w", []⟩⟩],
          {signatureOf ⟨[], 0, "w", []⟩}⟩) :=
  c6_consider_full_heap
    ⟨1, [⟨0, ⟨[], 0, "w", []⟩⟩], {signatureOf ⟨[], 0, "w", []⟩}⟩
    ⟨[], 1, "w", []⟩ ⟨0, ⟨[], 0, "w", []⟩⟩ [] rfl (by simp) (by decide)
    (by decide)

/-!  Seen-before-exclusivity in the standalone scorer (C10). -/

/-- The fold of `gseStep` from the fresh state. -/
def gseRun (score_table : ScoreTable) (effects : List Effect) : GseState :=
  effects.foldl (gseStep score_table) ⟨0, ∅, [], ∅⟩

/-- The step `gseStep` never removes a seen key. -/
theorem gseStep_seen_mono (score_table : ScoreTable) (st : GseState)
    (e : Effect) : st.seen ⊆ (gseStep score_table st e).seen := by
  obtain ⟨nm, lv, stk, ex⟩ := e
  cases ex <;> simp only [gseStep] <;> split_ifs <;>
    first
      | exact Finset.Subset.refl _
      | exact Finset.subset_insert _ _

/-- Folding `gseStep` never removes a seen key. -/
theorem gseFold_seen_mono (score_table : ScoreTable) (l : List Effect) :
    ∀ st : GseState, st.seen ⊆ (l.foldl (gseStep score_table) st).seen := by
  induction l with
  | nil => intro st; exact Finset.Subset.refl _
  | cons e l ih =>
    intro st
    exact (gseStep_seen_mono score_table st e).trans
      (ih (gseStep score_table st e))

/-- Folding over an appended list factors through `gseRun`. -/
theorem gseRun_append (score_table : ScoreTable) (la lb : List Effect) :
    gseRun score_table (la ++ lb) =
      lb.foldl (gseStep score_table) (gseRun score_table la) := by
  unfold gseRun
  rw [List.foldl_append]

/-- A non-stackable effect whose key is already seen is a complete no-op
for `get_scored_effects`. -/
theorem gseStep_blocked (score_table : ScoreTable) (st : GseState)
    (e : Effect) (hst : e.stackable = false)
    (hmem : (e.name, e.level) ∈ st.seen) :
    gseStep score_table st e = st := by
  unfold gseStep
  rw [if_neg]
  simp [hst, hmem]

/-- C10: in `get_scored_effects` the (name, level) key of a non-stackable
effect is recorded in `seen` before the exclusivity check.  So when such
an effect `e` arrives with its exclusivity tag already consumed, the step
changes nothing but `seen` (no active effect, no score — the blocked
occurrence is never active), and every later non-stackable effect `e'`
with the same (name, level) is excluded from the active set and the
score: the whole run equals the run with `e'` deleted. -/
theorem c10_blocked_effect_poisons_seen (score_table : ScoreTable)
    (l₁ l₂ l₃ : List Effect) (e e' : Effect) (tag : String)
    (hstack : e.stackable = false)
    (hnotseen : (e.name, e.level) ∉ (gseRun score_table l₁).seen)
    (hexcl : e.exclusive = some tag)
    (htaken : tag ∈ (gseRun score_table l₁).seen_exclusive)
    (hstack' : e'.stackable = false)
    (hname : e'.name = e.name) (hlevel : e'.level = e.level) :
    gseRun score_table (l₁ ++ [e]) =
      { gseRun score_table l₁ with
        seen := insert (e.name, e.level) (gseRun score_table l₁).seen } ∧
    gseRun score_table (l₁ ++ [e] ++ l₂ ++ [e'] ++ l₃) =
      gseRun score_table (l₁ ++ [e] ++ l₂ ++ l₃) := by
  have hstep : gseRun score_table (l₁ ++ [e]) =
      { gseRun score_table l₁ with
        seen := insert (e.name, e.level) (gseRun score_table l₁).seen } := by
    rw [gseRun_append]
    simp only [List.foldl_cons, List.foldl_nil]
    simp only [gseStep]
    rw [if_pos (Or.inr hnotseen), if_neg]
    push_neg
    exact ⟨by simp [hexcl], tag, hexcl, htaken⟩
  refine ⟨hstep, ?_⟩
  have hseen2 : (e'.name, e'.level) ∈
      (l₂.foldl (gseStep score_table) (gseRun score_table (l₁ ++ [e]))).seen := by
    rw [hname, hlevel]
    refine gseFold_seen_mono score_table l₂ (gseRun score_table (l₁ ++ [e])) ?_
    rw [hstep]
    exact Finset.mem_insert_self _ _
  calc gseRun score_table (l₁ ++ [e] ++ l₂ ++ [e'] ++ l₃)
      = gseRun score_table ((l₁ ++ [e]) ++ (l₂ ++ e' :: l₃)) := by
        congr 1
        simp
    _ = (l₂ ++ e' :: l₃).foldl (gseStep score_table)
          (gseRun score_table (l₁ ++ [e])) :=
        gseRun_append score_table (l₁ ++ [e]) (l₂ ++ e' :: l₃)
    _ = l₃.foldl (gseStep score_table)
          (gseStep score_table (l₂.foldl (gseStep score_table)
            (gseRun score_table (l₁ ++ [e]))) e') := by
        rw [List.foldl_append, List.foldl_cons]
    _ = l₃.foldl (gseStep score_table)
          (l₂.foldl (gseStep score_table)
            (gseRun score_table (l₁ ++ [e]))) := by
        rw [gseStep_blocked score_table _ e' hstack' hseen2]
    _ = (l₂ ++ l₃).foldl (gseStep score_table)
          (gseRun score_table (l₁ ++ [e])) :=
        (List.foldl_append ..).symm
    _ = gseRun score_table ((l₁ ++ [e]) ++ (l₂ ++ l₃)) :=
        (gseRun_append score_table (l₁ ++ [e]) (l₂ ++ l₃)).symm
    _ = gseRun score_table (l₁ ++ [e] ++ l₂ ++ l₃) := by
        congr 1
        simp

/-- Witness for C10 at a concrete blocked effect and poisoned successor. -/
theorem c10_blocked_effect_poisons_seen_witness :
    gseRun emptyTable ([⟨"x", 0, false, some "imbue"⟩] ++
        [⟨"a", 0, false, some "imbue"⟩]) =
      { gseRun emptyTable [⟨"x", 0, false, some "imbue"⟩] with
        seen := insert ("a", 0)
          (gseRun emptyTable [⟨"x", 0, false, some "imbue"⟩]).seen } ∧
    gseRun emptyTable ([⟨"x", 0, false, some "imbue"⟩] ++
        [⟨"a", 0, false, some "imbue"⟩] ++ [] ++
        [⟨"a", 0, false, none⟩] ++ []) =
      gseRun emptyTable ([⟨"x", 0, false, some "imbue"⟩] ++
        [⟨"a", 0, false, some "imbue"⟩] ++ [] ++ []) :=
  c10_blocked_effect_poisons_seen emptyTable
    [⟨"x", 0, false, some "imbue"⟩] [] []
    ⟨"a", 0, false, some "imbue"⟩ ⟨"a", 0, false, none⟩ "imbue"
    rfl (by decide) rfl (by decide) rfl rfl rfl

/-!  Scorer / standalone-scorer equivalence (C2, amended). -/

/-- The loop of `push_relic` skips a non-stackable effect whose key is already seen. -/
theorem pushEffect_blocked (score_table : ScoreTable) (s : ScorerState)
    (e : Effect) (hst : e.stackable = false)
    (hmem : (e.name, e.level) ∈ s.seen_keys) :
    pushEffect score_table s e = s := by
  simp [pushEffect, hst, hmem]

/-- Score and seen-set of a `pushEffect` that is not blocked, for an
effect without exclusivity tag. -/
theorem pushEffect_pass (score_table : ScoreTable) (s : ScorerState)
    (e : Effect)
    (h1 : e.stackable = true ∨ (e.name, e.level) ∉ s.seen_keys)
    (hex : e.exclusive = none) :
    (pushEffect score_table s e).current_score =
      s.current_score + score_of score_table e ∧
    (pushEffect score_table s e).seen_keys =
      (if e.stackable then s.seen_keys
       else insert (e.name, e.level) s.seen_keys) := by
  cases hst : e.stackable with
  | true =>
    by_cases hv : score_of score_table e ≠ 0
    · simp [pushEffect, hst, hex, hv]
    · rw [not_not] at hv
      simp [pushEffect, hst, hex, hv]
  | false =>
    have hmem : (e.name, e.level) ∉ s.seen_keys := by
      rcases h1 with h1 | h1
      · rw [hst] at h1; exact absurd h1 (by simp)
      · exact h1
    by_cases hv : score_of score_table e ≠ 0
    · simp [pushEffect, hst, hex, hv, hmem]
    · rw [not_not] at hv
      simp [pushEffect, hst, hex, hv, hmem]

/-- Score and seen-set of a `gseStep` that is not blocked, for an effect
without exclusivity tag, under a table without `"+*"` entries for its
name: the contribution coincides with `_score_of`. -/
theorem gseStep_pass (score_table : ScoreTable) (g : GseState) (e : Effect)
    (h1 : e.stackable = true ∨ (e.name, e.level) ∉ g.seen)
    (hex : e.exclusive = none)
    (hwild : score_table (lowerStr e.name ++ " +*") = none) :
    (gseStep score_table g e).score = g.score + score_of score_table e ∧
    (gseStep score_table g e).seen = insert (e.name, e.level) g.seen := by
  have hC : (match score_table (lowerStr e.qualified_name) with
      | some v => v
      | none =>
        match score_table (lowerStr e.name ++ " +*") with
        | some v => v
        | none =>
          (match score_table (lowerStr e.name) with
           | some v => v
           | none => 0) * ((e.level : Int) + 1)) =
      score_of score_table e := by
    unfold score_of
    cases hq : score_table (lowerStr e.qualified_name) <;> simp [hq, hwild]
  simp only [gseStep]
  rw [if_pos h1, if_pos (Or.inl hex)]
  simp only [hex]
  rw [hC]
  exact ⟨rfl, trivial⟩

/-- The core induction for C2: with no `"+*"` table entries, no
exclusivity tags and per-key stackability agreement, the incremental
scorer's running score tracks the standalone fold, related by: equal
scores, seen-keys included in the standalone seen set, and no key seen
only by the standalone side ever matching an upcoming non-stackable
effect. -/
theorem c2_core (score_table : ScoreTable) :
    ∀ (l : List Effect) (s : ScorerState) (g : GseState),
      (∀ e ∈ l, score_table (lowerStr e.name ++ " +*") = none) →
      (∀ e ∈ l, e.exclusive = none) →
      (∀ e ∈ l, ∀ e' ∈ l, e.name = e'.name → e.level = e'.level →
        e.stackable = e'.stackable) →
      s.current_score = g.score →
      s.seen_keys ⊆ g.seen →
      (∀ k ∈ g.seen, k ∉ s.seen_keys →
        ∀ e ∈ l, e.stackable = false → (e.name, e.level) ≠ k) →
      (l.foldl (pushEffect score_table) s).current_score =
        (l.foldl (gseStep score_table) g).score := by
  intro l
  induction l with
  | nil => intro s g _ _ _ hsc _ _; exact hsc
  | cons e l ih =>
    intro s g hwild hexcl hflag hsc hsub hinv
    have hwe : score_table (lowerStr e.name ++ " +*") = none :=
      hwild e (by simp)
    have hee : e.exclusive = none := hexcl e (by simp)
    simp only [List.foldl_cons]
    by_cases hst : e.stackable = true
    · obtain ⟨hscP, hskP⟩ := pushEffect_pass score_table s e (Or.inl hst) hee
      obtain ⟨hscG, hsgG⟩ :=
        gseStep_pass score_table g e (Or.inl hst) hee hwe
      refine ih (pushEffect score_table s e) (gseStep score_table g e)
        (fun x hx => hwild x (by simp [hx]))
        (fun x hx => hexcl x (by simp [hx]))
        (fun x hx y hy hn hl =>
          hflag x (by simp [hx]) y (by simp [hy]) hn hl)
        (by rw [hscP, hscG, hsc]) ?_ ?_
      · rw [hskP, hsgG, if_pos hst]
        exact hsub.trans (Finset.subset_insert _ _)
      · intro k hk hks x hx hxs
        rw [hsgG] at hk
        rw [hskP, if_pos hst] at hks
        rcases Finset.mem_insert.mp hk with rfl | hk'
        · intro hxe
          have hnm : x.name = e.name := congrArg Prod.fst hxe
          have hlv : x.level = e.level := congrArg Prod.snd hxe
          have := hflag x (by simp [hx]) e (by simp) hnm hlv
          rw [hxs, hst] at this
          exact Bool.false_ne_true this
        · exact hinv k hk' hks x (by simp [hx]) hxs
    · have hst' : e.stackable = false := by
        revert hst; cases e.stackable <;> simp
      by_cases hmem : (e.name, e.level) ∈ s.seen_keys
      · have hgm : (e.name, e.level) ∈ g.seen := hsub hmem
        rw [pushEffect_blocked score_table s e hst' hmem,
            gseStep_blocked score_table g e hst' hgm]
        exact ih s g (fun x hx => hwild x (by simp [hx]))
          (fun x hx => hexcl x (by simp [hx]))
          (fun x hx y hy hn hl =>
            hflag x (by simp [hx]) y (by simp [hy]) hn hl)
          hsc hsub
          (fun k hk hks x hx => hinv k hk hks x (by simp [hx]))
      · have hgnot : (e.name, e.level) ∉ g.seen := by
          intro hgm
          exact hinv _ hgm hmem e (by simp) hst' rfl
        obtain ⟨hscP, hskP⟩ :=
          pushEffect_pass score_table s e (Or.inr hmem) hee
        obtain ⟨hscG, hsgG⟩ :=
          gseStep_pass score_table g e (Or.inr hgnot) hee hwe
        refine ih (pushEffect score_table s e) (gseStep score_table g e)
          (fun x hx => hwild x (by simp [hx]))
          (fun x hx => hexcl x (by simp [hx]))
          (fun x hx y hy hn hl =>
            hflag x (by simp [hx]) y (by simp [hy]) hn hl)
          (by rw [hscP, hscG, hsc]) ?_ ?_
        · rw [hskP, if_neg (by simp [hst']), hsgG]
          exact Finset.insert_subset_insert _ hsub
        · intro k hk hks x hx hxs
          rw [hsgG] at hk
          rw [hskP, if_neg (by simp [hst'])] at hks
          rcases Finset.mem_insert.mp hk with rfl | hk'
          · exact absurd (Finset.mem_insert_self _ _) hks
          · exact hinv k hk'
              (fun hmem' => hks (Finset.mem_insert_of_mem hmem'))
              x (by simp [hx]) hxs

/-- Sequential `push_relic` calls are the fold of `pushEffect` over the
concatenation of the relics' effect lists. -/
theorem pushRelics_eq_foldl (score_table : ScoreTable) :
    ∀ (relics : List Relic) (s : ScorerState),
      pushRelics score_table s relics =
        (relics.flatMap Relic.effects_and_curses).foldl
          (pushEffect score_table) s := by
  intro relics
  induction relics with
  | nil => intro s; rfl
  | cons r rs ih =>
    intro s
    simp only [pushRelics, List.foldl_cons] at *
    rw [show (r :: rs).flatMap Relic.effects_and_curses =
          r.effects_and_curses ++ rs.flatMap Relic.effects_and_curses by
        simp, List.foldl_append]
    exact ih (push_relic score_table s r)

/-- C2 (amended): for a score table without `"name +*"` wildcard entries
and a relic sequence whose effects carry no exclusivity tag and agree on
stackability whenever they share a (name, level) key, the incremental
scorer's final `current_score` after sequential `push_relic` calls equals
`get_scored_effects` applied to the concatenation of all pushed relics'
effects, in order. -/
theorem c2_amended_equivalence (score_table : ScoreTable)
    (relics : List Relic)
    (hwild : ∀ e ∈ relics.flatMap Relic.effects_and_curses,
      score_table (lowerStr e.name ++ " +*") = none)
    (hexcl : ∀ e ∈ relics.flatMap Relic.effects_and_curses,
      e.exclusive = none)
    (hflag : ∀ e ∈ relics.flatMap Relic.effects_and_curses,
      ∀ e' ∈ relics.flatMap Relic.effects_and_curses,
      e.name = e'.name → e.level = e'.level →
      e.stackable = e'.stackable) :
    (pushRelics score_table initScorer relics).current_score =
      (get_scored_effects (relics.flatMap Relic.effects_and_curses)
        score_table).score := by
  rw [pushRelics_eq_foldl]
  exact c2_core score_table (relics.flatMap Relic.effects_and_curses)
    initScorer ⟨0, ∅, [], ∅⟩ hwild hexcl hflag rfl
    (by intro x hx; simp [initScorer] at hx)
    (by intro k hk; simp at hk)

/-- Witness for C2 (amended): two stackable copies of `"a"` under the
bare-name table `{"a": 3}` score 6 on both sides. -/
theorem c2_amended_equivalence_witness :
    (pushRelics (fun s => if s = "a" then some 3 else none) initScorer
        [⟨.red, [⟨"a", 0, true, none⟩, ⟨"a", 0, true, none⟩]⟩]).current_score =
      (get_scored_effects
        ([(⟨.red, [⟨"a", 0, true, none⟩, ⟨"a", 0, true, none⟩]⟩ :
          Relic)].flatMap Relic.effects_and_curses)
        (fun s => if s = "a" then some 3 else none)).score :=
  c2_amended_equivalence (fun s => if s = "a" then some 3 else none)
    [⟨.red, [⟨"a", 0, true, none⟩, ⟨"a", 0, true, none⟩]⟩]
    (by decide) (by decide) (by decide)

/-!  Boundedness of the top-K collector (C7). -/

/-- Instrumented sequence of `consider` calls: alongside the collector,
`acc` accumulates every signature the collector ever held — the
signatures of the accepted builds. -/
def considerTrace :
    BuildHeap × Finset Signature → List Build →
      Option (BuildHeap × Finset Signature)
  | p, [] => some p
  | (h, acc), b :: rest =>
    match consider h b with
    | none => none
    | some h' => considerTrace (h', acc ∪ h'.signatures) rest

/-- One `consider` call preserves the collector invariant: capacity `K`,
entry signatures distinct and mirrored by the signature set, size within
`K`, signatures within the accepted set, and — below capacity — accepted
set equal to the signature set. -/
theorem consider_step_inv (K : Int) (hK : 1 ≤ K) (heap : List Entry)
    (sigs : Finset Signature) (acc : Finset Signature) (b : Build)
    (hnodup : (heap.map fun e => signatureOf e.build).Nodup)
    (hsigs : sigs = (heap.map fun e => signatureOf e.build).toFinset)
    (hlen : (heap.length : Int) ≤ K)
    (hsub : sigs ⊆ acc)
    (heq : (heap.length : Int) < K → acc = sigs) :
    ∃ h' : BuildHeap, consider ⟨K, heap, sigs⟩ b = some h' ∧
      h'.max_size = K ∧
      (h'.heap.map fun e => signatureOf e.build).Nodup ∧
      h'.signatures = (h'.heap.map fun e => signatureOf e.build).toFinset ∧
      (h'.heap.length : Int) ≤ K ∧
      h'.signatures ⊆ acc ∪ h'.signatures ∧
      ((h'.heap.length : Int) < K → acc ∪ h'.signatures = h'.signatures) := by
  by_cases hsig : signatureOf b ∈ sigs
  · refine ⟨⟨K, heap, sigs⟩, by simp [consider, hsig], rfl, hnodup, hsigs,
      hlen, Finset.subset_union_right, fun hlt => ?_⟩
    rw [heq hlt]
    exact Finset.union_eq_right.mpr (Finset.Subset.refl _)
  · by_cases hlt : (heap.length : Int) < K
    · -- room: heappush
      have hperm := heapInsert_perm ⟨b.score, b⟩ heap
      have hpermm : ((heapInsert ⟨b.score, b⟩ heap).map
          fun e => signatureOf e.build).Perm
          (signatureOf b :: heap.map fun e => signatureOf e.build) := by
        simpa using hperm.map (fun e => signatureOf e.build)
      have hnotin : signatureOf b ∉ heap.map fun e => signatureOf e.build :=
        fun hm => hsig (by rw [hsigs]; exact List.mem_toFinset.mpr hm)
      refine ⟨⟨K, heapInsert ⟨b.score, b⟩ heap, insert (signatureOf b) sigs⟩,
        by simp [consider, hsig, hlt], rfl, ?_, ?_, ?_,
        Finset.subset_union_right, fun _ => ?_⟩
      · exact hpermm.nodup_iff.mpr (List.nodup_cons.mpr ⟨hnotin, hnodup⟩)
      · have ht : ((heapInsert ⟨b.score, b⟩ heap).map
            fun e => signatureOf e.build).toFinset =
            (signatureOf b :: heap.map fun e => signatureOf e.build).toFinset :=
          Finset.ext fun x => by
            simp only [List.mem_toFinset, hpermm.mem_iff]
        rw [ht, List.toFinset_cons, hsigs]
      · rw [hperm.length_eq]
        simp only [List.length_cons]
        push_cast
        omega
      · rw [heq hlt]
        exact Finset.union_eq_right.mpr (Finset.subset_insert _ _)
    · -- full: heapreplace or reject
      match heap with
      | [] =>
        exfalso
        simp only [List.length_nil, Nat.cast_zero] at hlt
        omega
      | root :: rest =>
        rw [List.map_cons] at hnodup
        have hnodup' := List.nodup_cons.mp hnodup
        by_cases hgt : b.score > root.score
        · have hperm := heapInsert_perm ⟨b.score, b⟩ rest
          have hpermm : ((heapInsert ⟨b.score, b⟩ rest).map
              fun e => signatureOf e.build).Perm
              (signatureOf b :: rest.map fun e => signatureOf e.build) := by
            simpa using hperm.map (fun e => signatureOf e.build)
          have herase : sigs.erase (signatureOf root.build) =
              (rest.map fun e => signatureOf e.build).toFinset := by
            rw [hsigs]
            simp only [List.map_cons, List.toFinset_cons]
            exact Finset.erase_insert
              (fun hm => hnodup'.1 (List.mem_toFinset.mp hm))
          have hnotin : signatureOf b ∉
              rest.map fun e => signatureOf e.build := by
            intro hm
            apply hsig
            rw [hsigs]
            simp only [List.map_cons, List.toFinset_cons]
            exact Finset.mem_insert_of_mem (List.mem_toFinset.mpr hm)
          refine ⟨⟨K, heapInsert ⟨b.score, b⟩ rest,
            insert (signatureOf b) (sigs.erase (signatureOf root.build))⟩,
            by unfold consider; rw [if_neg hsig, if_neg hlt]; simp [hgt],
            rfl, ?_, ?_, ?_,
            Finset.subset_union_right, fun hlt' => ?_⟩
          · exact hpermm.nodup_iff.mpr
              (List.nodup_cons.mpr ⟨hnotin, hnodup'.2⟩)
          · have ht : ((heapInsert ⟨b.score, b⟩ rest).map
                fun e => signatureOf e.build).toFinset =
                (signatureOf b ::
                  rest.map fun e => signatureOf e.build).toFinset :=
              Finset.ext fun x => by
                simp only [List.mem_toFinset, hpermm.mem_iff]
            rw [ht, List.toFinset_cons, herase]
          · rw [hperm.length_eq]
            simp only [List.length_cons] at hlen ⊢
            exact hlen
          · exfalso
            rw [hperm.length_eq] at hlt'
            simp only [List.length_cons] at hlt hlt'
            exact hlt hlt'
        · refine ⟨⟨K, root :: rest, sigs⟩,
            by unfold consider; rw [if_neg hsig, if_neg hlt]; simp [hgt],
            rfl, by rw [List.map_cons]; exact hnodup,
            hsigs, hlen, Finset.subset_union_right, fun hlt' => ?_⟩
          exact absurd hlt' hlt

/-- The invariant holds along any instrumented `consider` sequence. -/
theorem considerTrace_inv (K : Int) (hK : 1 ≤ K) :
    ∀ (builds : List Build) (heap : List Entry)
      (sigs acc : Finset Signature),
      (heap.map fun e => signatureOf e.build).Nodup →
      sigs = (heap.map fun e => signatureOf e.build).toFinset →
      (heap.length : Int) ≤ K →
      sigs ⊆ acc →
      ((heap.length : Int) < K → acc = sigs) →
      ∃ (h : BuildHeap) (acc' : Finset Signature),
        considerTrace (⟨K, heap, sigs⟩, acc) builds = some (h, acc') ∧
        h.max_size = K ∧
        (h.heap.map fun e => signatureOf e.build).Nodup ∧
        h.signatures = (h.heap.map fun e => signatureOf e.build).toFinset ∧
        (h.heap.length : Int) ≤ K ∧
        h.signatures ⊆ acc' ∧
        ((h.heap.length : Int) < K → acc' = h.signatures) := by
  intro builds
  induction builds with
  | nil =>
    intro heap sigs acc hnodup hsigs hlen hsub heq
    exact ⟨⟨K, heap, sigs⟩, acc, rfl, rfl, hnodup, hsigs, hlen, hsub, heq⟩
  | cons b rest ih =>
    intro heap sigs acc hnodup hsigs hlen hsub heq
    obtain ⟨h', hconsider, hmax', hnodup', hsigs', hlen', hsub', heq'⟩ :=
      consider_step_inv K hK heap sigs acc b hnodup hsigs hlen hsub heq
    obtain ⟨h'', acc'', htrace, hrest⟩ := ih h'.heap h'.signatures
      (acc ∪ h'.signatures) hnodup' hsigs' (hmax' ▸ hlen') hsub'
      (fun hlt => heq' (hmax' ▸ hlt))
    refine ⟨h'', acc'', ?_, hrest⟩
    rw [show considerTrace (⟨K, heap, sigs⟩, acc) (b :: rest) =
          match consider ⟨K, heap, sigs⟩ b with
          | none => none
          | some h' => considerTrace (h', acc ∪ h'.signatures) rest from rfl,
        hconsider]
    have hh : h' = ⟨K, h'.heap, h'.signatures⟩ := by
      obtain ⟨m, hp, sg⟩ := h'
      simp only at hmax'
      rw [hmax']
    rw [hh] at htrace ⊢
    exact htrace

/-- C7: after any sequence of `consider` calls on a collector of capacity
K ≥ 1, the collector holds at most K entries, and holds exactly
min(K, number of distinct accepted signatures) — the signatures of the
builds that were ever inserted, as accumulated by `considerTrace`. -/
theorem c7_collector_bounded (K : Int) (hK : 1 ≤ K) (builds : List Build) :
    ∃ (h : BuildHeap) (acc : Finset Signature),
      considerTrace (⟨K, [], ∅⟩, ∅) builds = some (h, acc) ∧
      (h.heap.length : Int) ≤ K ∧
      (h.heap.length : Int) = min K (acc.card : Int) := by
  obtain ⟨h, acc, htrace, _, hnodup, hsigs, hlen, hsub, heq⟩ :=
    considerTrace_inv K hK builds [] ∅ ∅ (by simp) (by simp)
      (by simp; omega) (Finset.Subset.refl _) (fun _ => rfl)
  refine ⟨h, acc, htrace, hlen, ?_⟩
  have hcard : (h.signatures.card : Int) = (h.heap.length : Int) := by
    rw [hsigs, List.toFinset_card_of_nodup hnodup]
    simp
  by_cases hlt : (h.heap.length : Int) < K
  · rw [heq hlt]
    omega
  · have hcc : (h.signatures.card : Int) ≤ (acc.card : Int) := by
      exact_mod_cast Finset.card_le_card hsub
    omega

/-- Witness for C7 at capacity one and a single considered build. -/
theorem c7_collector_bounded_witness :
    ∃ (h : BuildHeap) (acc : Finset Signature),
      considerTrace (⟨1, [], ∅⟩, ∅) [⟨[], 5, "w", []⟩] = some (h, acc) ∧
      (h.heap.length : Int) ≤ 1 ∧
      (h.heap.length : Int) = min 1 (acc.card : Int) :=
  c7_collector_bounded 1 (by decide) [⟨[], 5, "w", []⟩]

end NR
